import Mathlib

/-!
Verification development for the ngx-signal-hub repository.

The repository contains three variants of the same in-process pub/sub hub:
* the queued-dispatch `SignalHubService`
  (src/projects/ngx-signal-hub/src/lib/signal-bus.service.ts), which buffers
  publishes through an `eventQueue` signal drained by a constructor `effect`;
* a synchronous-dispatch `SignalHubService` (src/unnamed/part_000) that
  updates the registry and notifies subscribers directly inside `publish`,
  and adds `until` stop-conditions, `once`, `onCombineLatest` and a
  regex-based wildcard matcher;
* the older `SignalBusService` (src/unnamed/part_001), whose matcher and
  queue mechanics coincide with the first variant.

Below, JavaScript `Map`s are embedded as insertion-ordered association
lists, callbacks are abstracted by integer identifiers plus the data the
dispatcher actually inspects (whether the call throws, whether an error
handler was supplied), and `Date.now()` is an explicit clock argument.
-/

/-- Insertion-ordered association-list read, mirroring JavaScript
`Map.prototype.get`. -/
def mapGet {β : Type} : List (String × β) → String → Option β
  | [], _ => none
  | (k, v) :: rest, q => if k = q then some v else mapGet rest q

/-- Insertion-ordered association-list write, mirroring JavaScript
`Map.prototype.set`: replace in place if the key is present (keys are unique
in every state built below), otherwise append. -/
def mapSet {β : Type} : List (String × β) → String → β → List (String × β)
  | [], q, v => [(q, v)]
  | (k, w) :: rest, q, v => if k = q then (q, v) :: rest else (k, w) :: mapSet rest q v

/-- Mirrors JavaScript `Map.prototype.delete`. -/
def mapDelete {β : Type} (m : List (String × β)) (q : String) : List (String × β) :=
  m.filter (fun p => p.1 ≠ q)

theorem mapGet_mapSet_self {β : Type} (m : List (String × β)) (k : String) (v : β) :
    mapGet (mapSet m k v) k = some v := by
  induction m with
  | nil => simp [mapSet, mapGet]
  | cons p rest ih =>
    obtain ⟨k1, v1⟩ := p
    by_cases h : k1 = k <;> simp [mapSet, mapGet, h, ih]

theorem mapGet_mapSet_ne {β : Type} (m : List (String × β)) (k q : String) (v : β)
    (h : k ≠ q) : mapGet (mapSet m k v) q = mapGet m q := by
  induction m with
  | nil => simp [mapSet, mapGet, h]
  | cons p rest ih =>
    obtain ⟨k1, v1⟩ := p
    by_cases h1 : k1 = k
    · subst h1
      simp [mapSet, mapGet, h]
    · simp only [mapSet, if_neg h1]
      by_cases h2 : k1 = q <;> simp [mapGet, h2, ih]

theorem mapSet_ne_nil {β : Type} (m : List (String × β)) (k : String) (v : β) :
    mapSet m k v ≠ [] := by
  cases m with
  | nil => simp [mapSet]
  | cons p rest =>
    obtain ⟨k1, v1⟩ := p
    by_cases h : k1 = k <;> simp [mapSet, h]

/-- JavaScript `String.prototype.split(':')` on the character list of a
string (signal-bus.service.ts lines 540–541). -/
def splitCols : List Char → List (List Char)
  | [] => [[]]
  | c :: cs =>
    let r := splitCols cs
    if c = ':' then [] :: r
    else
      match r with
      | h :: t => (c :: h) :: t
      | [] => [[c]]

/-- Key matcher of the queued-dispatch variant (signal-bus.service.ts
lines 534–547) and of part_001 (lines 287–300): exact match, global `*`,
or first-segment equality when the second query segment is `*`. -/
def matchQuery (key query : String) : Bool :=
  if key = query then true
  else if query = "*" then true
  else if key.data.contains ':' && query.data.contains ':' then
    match splitCols key.data, splitCols query.data with
    | k1 :: _, q1 :: q2 :: _ => decide (k1 = q1) && decide (q2 = ['*'])
    | _, _ => false
  else false

/-- Anchored match of the regex built by part_000 `buildWildcardRegex`
(lines 343–346): every non-`*` character of the query is matched literally
(the replace escapes all regex metacharacters), and each `*` is compiled to
`[^:]+`, one or more characters other than the delimiter. -/
def wildMatch : List Char → List Char → Bool
  | ps, [] =>
    -- a literal needs one character, and a `[^:]+` group needs at least one
    ps.isEmpty
  | [], _ :: _ => false
  | p :: ps, k :: ks =>
    if p = '*' then (k ≠ ':') && (wildMatch ps ks || wildMatch (p :: ps) ks)
    else (p = k) && wildMatch ps ks

/-- part_000 `buildWildcardRegex(query).test(key)`. -/
def regexTest (query key : String) : Bool :=
  wildMatch query.data key.data

/-- Key matcher of the synchronous-dispatch variant (part_000
lines 337–341). -/
def matchQueryRegex (key query : String) : Bool :=
  if query = "*" || key = query then true
  else if !(query.data.contains '*') then false
  else regexTest query key

/-- C2: the global pattern `*` matches every key, a pattern equal to the
key matches, and the prefix pattern `a:*` accepts `a:b` and `a:anything`
while rejecting `b:a` and the bare `a` — in both matcher variants. -/
theorem matcher_spec (k : String) :
    (matchQuery k "*" = true ∧ matchQueryRegex k "*" = true ∧
      matchQuery k k = true ∧ matchQueryRegex k k = true) ∧
    (matchQuery "a:b" "a:*" = true ∧ matchQuery "a:anything" "a:*" = true ∧
      matchQuery "b:a" "a:*" = false ∧ matchQuery "a" "a:*" = false) ∧
    (matchQueryRegex "a:b" "a:*" = true ∧ matchQueryRegex "a:anything" "a:*" = true ∧
      matchQueryRegex "b:a" "a:*" = false ∧ matchQueryRegex "a" "a:*" = false) := by
  refine ⟨⟨?_, ?_, ?_, ?_⟩, by decide, by decide⟩
  · by_cases h : k = "*" <;> simp [matchQuery, h]
  · by_cases h : k = "*" <;> simp [matchQueryRegex, h]
  · simp [matchQuery]
  · simp [matchQueryRegex]

/-- An event of the hub: signal-bus.service.ts lines 15–19 (same shape in
part_000 lines 13–17 and part_001 lines 138–142). `Date.now()` timestamps
are modelled as natural numbers supplied by an explicit clock argument. -/
structure HubEvent (α : Type) where
  key : String
  data : α
  timestamp : Nat
deriving DecidableEq

/-- A subscriber entry of the queued-dispatch variant
(signal-bus.service.ts lines 88–94): the callback is abstracted by an
identifier together with the only facts the dispatcher inspects — whether
invoking it on the dispatched event throws/rejects, and whether an
`onError` handler was supplied. -/
structure MainSubscriber where
  id : Nat
  fails : Bool
  hasOnError : Bool
deriving DecidableEq

/-- State of the queued-dispatch `SignalHubService`
(signal-bus.service.ts lines 85–94), plus the list of teardown callbacks
registered on `DestroyRef`s (line 482); each hook is recorded as the
(query, callback id) pair it will unsubscribe. -/
structure HubState (α : Type) where
  eventQueue : List (HubEvent α)
  eventRegistry : List (String × HubEvent α)
  subscribers : List (String × List MainSubscriber)
  destroyHooks : List (String × Nat)

/-- `publish` (signal-bus.service.ts lines 132–138): validate, build the
event with the current clock, append it to the queue. `data == null` is
modelled by an `Option` payload. -/
def publishM {α : Type} (st : HubState α) (key : String) (d : Option α) (now : Nat) :
    Except String (HubState α) :=
  if key = "" then .error "Key cannot be empty"
  else
    match d with
    | none => .error "Data cannot be null or undefined"
    | some v => .ok { st with eventQueue := st.eventQueue ++ [⟨key, v, now⟩] }

/-- A thrown validation error leaves the service object exactly as it was:
run an operation, keeping the prior state when it throws. -/
def publishRun {α : Type} (st : HubState α) (key : String) (d : Option α) (now : Nat) :
    Option String × HubState α :=
  match publishM st key d now with
  | .error e => (some e, st)
  | .ok st' => (none, st')

/-- Handle returned by `internalSubscribe` (signal-bus.service.ts
lines 485–491): `manual` is the captured `manualUnsubscribe` flag, set to
`false` when a `DestroyRef` was supplied (lines 479–483). -/
structure MainHandle where
  query : String
  cid : Nat
  manual : Bool

/-- `internalSubscribe` (signal-bus.service.ts lines 467–492): append the
entry under the query, and either register a destroy hook (disabling
manual unsubscription) or return a manual handle. -/
def internalSubscribe {α : Type} (st : HubState α) (query : String) (s : MainSubscriber)
    (hasDestroyRef : Bool) : HubState α × MainHandle :=
  let callbacks := (mapGet st.subscribers query).getD []
  let st' := { st with subscribers := mapSet st.subscribers query (callbacks ++ [s]) }
  if hasDestroyRef then
    ({ st' with destroyHooks := st'.destroyHooks ++ [(query, s.id)] }, ⟨query, s.id, false⟩)
  else
    (st', ⟨query, s.id, true⟩)

/-- Private `unsubscribe` (signal-bus.service.ts lines 517–532). -/
def unsubscribeM {α : Type} (st : HubState α) (query : String) (cid : Nat) : HubState α :=
  match mapGet st.subscribers query with
  | none => st
  | some callbacks =>
    let updated := callbacks.filter (fun s => s.id ≠ cid)
    if updated.isEmpty then { st with subscribers := mapDelete st.subscribers query }
    else { st with subscribers := mapSet st.subscribers query updated }

/-- `handle.unsubscribe()` (signal-bus.service.ts lines 486–490): only
acts when `manualUnsubscribe` is still true. -/
def handleUnsubscribe {α : Type} (st : HubState α) (h : MainHandle) : HubState α :=
  if h.manual then unsubscribeM st h.query h.cid else st

/-- The teardown registered against the `DestroyRef`
(signal-bus.service.ts line 482). -/
def destroyFireOne {α : Type} (st : HubState α) (query : String) (cid : Nat) : HubState α :=
  unsubscribeM st query cid

/-- `unsubscribeAll` (signal-bus.service.ts lines 459–465) with a key. -/
def unsubscribeAllFor {α : Type} (st : HubState α) (query : String) : HubState α :=
  { st with subscribers := mapDelete st.subscribers query }

/-- `unsubscribeAll()` without a key, and the `clearSubscribers` branch of
`reset` (signal-bus.service.ts lines 441–446, 459–465). -/
def clearSubscribers {α : Type} (st : HubState α) : HubState α :=
  { st with subscribers := [] }

/-- `subscribe` (signal-bus.service.ts lines 177–202): the key is
validated before anything else; the `replayLatest` branch only invokes the
callback (catching its errors) and mutates nothing, so the state result is
that of `internalSubscribe`. A thrown error leaves the state unchanged. -/
def subscribeRun {α : Type} (st : HubState α) (key : String) (s : MainSubscriber)
    (hasDestroyRef replayLatest : Bool) : Option String × (HubState α × Option MainHandle) :=
  if key = "" then (some "Key cannot be empty", (st, none))
  else
    let (st', h) := internalSubscribe st key s hasDestroyRef
    (none, (st', some h))

/-- Observable effects of one dispatch fan-out: a callback invocation, an
error routed to that subscription's own `onError`, or an error logged to
the default `console.warn` sink. -/
inductive NotifyEffect where
  | invoked (id : Nat)
  | handled (id : Nat)
  | logged (id : Nat)
deriving DecidableEq

/-- The effects of dispatching one event to one subscriber entry
(signal-bus.service.ts lines 499–510): the callback is always invoked; if
it throws/rejects, the `.catch` routes the error to the entry's own
`onError` when present, else to `console.warn`. Nothing escapes. -/
def dispatchEntry (s : MainSubscriber) : List NotifyEffect :=
  .invoked s.id ::
    (if s.fails then [if s.hasOnError then .handled s.id else .logged s.id] else [])

/-- `notifySubscribers` (signal-bus.service.ts lines 494–515): for every
registered query that matches the event key, dispatch to each of its
entries in order. The function is total: a subscriber failure is consumed
by the per-entry catch and only shows up as a routed effect. -/
def notify (subs : List (String × List MainSubscriber)) (ekey : String) : List NotifyEffect :=
  subs.flatMap (fun qs => if matchQuery ekey qs.1 then qs.2.flatMap dispatchEntry else [])

/-- The constructor effect draining the queue (signal-bus.service.ts
lines 96–117): if the queue is non-empty, write every queued event into a
copy of the registry, notify subscribers for each event in order, then
install the new registry and clear the queue. Callback bodies are deferred
microtasks, so the subscriber map read during the drain is unchanged. -/
def drainQueue {α : Type} (st : HubState α) : HubState α × List NotifyEffect :=
  if st.eventQueue.isEmpty then (st, [])
  else
    let logs := st.eventQueue.flatMap (fun e => notify st.subscribers e.key)
    let reg := st.eventQueue.foldl (fun r e => mapSet r e.key e) st.eventRegistry
    ({ st with eventRegistry := reg, eventQueue := [] }, logs)

/-- `toSignal` read (signal-bus.service.ts lines 381–384). -/
def toSignalRead {α : Type} (st : HubState α) (key : String) :
    Except String (Option (HubEvent α)) :=
  if key = "" then .error "Key cannot be empty"
  else .ok (mapGet st.eventRegistry key)

theorem invoked_mem_dispatchEntry (s : MainSubscriber) (i : Nat) :
    NotifyEffect.invoked i ∈ dispatchEntry s ↔ s.id = i := by
  cases hf : s.fails <;> cases hh : s.hasOnError <;>
    simp [dispatchEntry, hf, hh, eq_comm]

theorem handled_mem_dispatchEntry (s : MainSubscriber) (i : Nat) :
    NotifyEffect.handled i ∈ dispatchEntry s ↔
      s.id = i ∧ s.fails = true ∧ s.hasOnError = true := by
  cases hf : s.fails <;> cases hh : s.hasOnError <;>
    simp [dispatchEntry, hf, hh, eq_comm]

theorem logged_mem_dispatchEntry (s : MainSubscriber) (i : Nat) :
    NotifyEffect.logged i ∈ dispatchEntry s ↔
      s.id = i ∧ s.fails = true ∧ s.hasOnError = false := by
  cases hf : s.fails <;> cases hh : s.hasOnError <;>
    simp [dispatchEntry, hf, hh, eq_comm]

theorem mem_notify_iff (subs : List (String × List MainSubscriber)) (ekey : String)
    (eff : NotifyEffect) :
    eff ∈ notify subs ekey ↔
      ∃ q es s, (q, es) ∈ subs ∧ matchQuery ekey q = true ∧ s ∈ es ∧
        eff ∈ dispatchEntry s := by
  simp only [notify, List.mem_flatMap]
  constructor
  · rintro ⟨⟨q, es⟩, hqs, hin⟩
    by_cases h : matchQuery ekey q
    · simp only [h, if_true, List.mem_flatMap] at hin
      obtain ⟨s, hs, hds⟩ := hin
      exact ⟨q, es, s, hqs, h, hs, hds⟩
    · simp [h] at hin
  · rintro ⟨q, es, s, hqs, hm, hs, hds⟩
    refine ⟨(q, es), hqs, ?_⟩
    simp only [hm, if_true, List.mem_flatMap]
    exact ⟨s, hs, hds⟩

/-- C3: during a publish fan-out, every subscriber whose query matches is
invoked no matter which other callbacks throw; a throwing subscriber's
error is routed to its own `onError` exactly when one was supplied, and to
the default `console.warn` sink otherwise; a subscriber that does not
throw triggers neither sink; and the outcome of the publish call itself is
determined by input validation alone, independent of the subscriber
registry and of any callback failure. -/
theorem dispatch_error_isolation {α : Type} (subs : List (String × List MainSubscriber))
    (ekey : String) (i : Nat) (st : HubState α) (key : String) (d : Option α) (now : Nat) :
    (NotifyEffect.invoked i ∈ notify subs ekey ↔
      ∃ q es s, (q, es) ∈ subs ∧ matchQuery ekey q = true ∧ s ∈ es ∧ s.id = i) ∧
    (NotifyEffect.handled i ∈ notify subs ekey ↔
      ∃ q es s, (q, es) ∈ subs ∧ matchQuery ekey q = true ∧ s ∈ es ∧ s.id = i ∧
        s.fails = true ∧ s.hasOnError = true) ∧
    (NotifyEffect.logged i ∈ notify subs ekey ↔
      ∃ q es s, (q, es) ∈ subs ∧ matchQuery ekey q = true ∧ s ∈ es ∧ s.id = i ∧
        s.fails = true ∧ s.hasOnError = false) ∧
    ((publishRun st key d now).1 = none ↔ key ≠ "" ∧ d.isSome = true) := by
  refine ⟨?_, ?_, ?_, ?_⟩
  · rw [mem_notify_iff]
    constructor
    · rintro ⟨q, es, s, hqs, hm, hs, hds⟩
      exact ⟨q, es, s, hqs, hm, hs, (invoked_mem_dispatchEntry s i).mp hds⟩
    · rintro ⟨q, es, s, hqs, hm, hs, hid⟩
      exact ⟨q, es, s, hqs, hm, hs, (invoked_mem_dispatchEntry s i).mpr hid⟩
  · rw [mem_notify_iff]
    constructor
    · rintro ⟨q, es, s, hqs, hm, hs, hds⟩
      obtain ⟨h1, h2, h3⟩ := (handled_mem_dispatchEntry s i).mp hds
      exact ⟨q, es, s, hqs, hm, hs, h1, h2, h3⟩
    · rintro ⟨q, es, s, hqs, hm, hs, h1, h2, h3⟩
      exact ⟨q, es, s, hqs, hm, hs, (handled_mem_dispatchEntry s i).mpr ⟨h1, h2, h3⟩⟩
  · rw [mem_notify_iff]
    constructor
    · rintro ⟨q, es, s, hqs, hm, hs, hds⟩
      obtain ⟨h1, h2, h3⟩ := (logged_mem_dispatchEntry s i).mp hds
      exact ⟨q, es, s, hqs, hm, hs, h1, h2, h3⟩
    · rintro ⟨q, es, s, hqs, hm, hs, h1, h2, h3⟩
      exact ⟨q, es, s, hqs, hm, hs, (logged_mem_dispatchEntry s i).mpr ⟨h1, h2, h3⟩⟩
  · by_cases hk : key = ""
    · simp [publishRun, publishM, hk]
    · cases d <;> simp [publishRun, publishM, hk]

/-- C4: publishing a valid key and then letting the queue-draining effect
settle makes the latest-event read return exactly the published payload,
stamped with the publish-time clock, which is at least any clock value
observed before the publish. -/
theorem publish_then_latest {α : Type} (st : HubState α) (k : String) (d : α)
    (t tBefore : Nat) (hk : k ≠ "") (ht : tBefore ≤ t) :
    ∃ st1, publishM st k (some d) t = .ok st1 ∧
      toSignalRead (drainQueue st1).1 k = .ok (some ⟨k, d, t⟩) ∧
      tBefore ≤ (HubEvent.mk k d t).timestamp := by
  have h1 : publishM st k (some d) t =
      .ok { st with eventQueue := st.eventQueue ++ [⟨k, d, t⟩] } := by
    simp [publishM, hk]
  refine ⟨_, h1, ?_, ht⟩
  have hne : (st.eventQueue ++ [(⟨k, d, t⟩ : HubEvent α)]).isEmpty = false := by
    simp
  simp only [drainQueue, hne, Bool.false_eq_true, if_false, toSignalRead, hk, if_neg,
    List.foldl_append, List.foldl_cons, List.foldl_nil]
  simp [mapGet_mapSet_self]

theorem publish_then_latest_witness :
    ("k" : String) ≠ "" ∧ 3 ≤ 5 ∧
      ∃ st1, publishM (⟨[], [], [], []⟩ : HubState Nat) "k" (some 7) 5 = .ok st1 ∧
        toSignalRead (drainQueue st1).1 "k" = .ok (some ⟨"k", 7, 5⟩) ∧
        3 ≤ (HubEvent.mk "k" (7 : Nat) 5).timestamp :=
  ⟨by decide, by decide,
    publish_then_latest (⟨[], [], [], []⟩ : HubState Nat) "k" 7 5 3 (by decide) (by decide)⟩

/-- C5: publishing to the empty key and subscribing with the empty key
both fail synchronously with the invalid-key error, for every payload and
every callback, and leave the whole service state (event queue, latest
registry, subscriber registry, destroy hooks) exactly as it was. -/
theorem invalid_key_rejected {α : Type} (st : HubState α) (d : Option α) (now : Nat)
    (s : MainSubscriber) (hasDestroyRef replayLatest : Bool) :
    publishRun st "" d now = (some "Key cannot be empty", st) ∧
    subscribeRun st "" s hasDestroyRef replayLatest = (some "Key cannot be empty", (st, none)) := by
  constructor
  · simp [publishRun, publishM]
  · simp [subscribeRun]

theorem mapGet_mapDelete_self {β : Type} (m : List (String × β)) (q : String) :
    mapGet (mapDelete m q) q = none := by
  induction m with
  | nil => simp [mapDelete, mapGet]
  | cons p rest ih =>
    obtain ⟨k, v⟩ := p
    by_cases h : k = q
    · simp [mapDelete, h] at ih ⊢
      exact ih
    · simpa [mapDelete, mapGet, h] using ih

theorem mapSet_mapSet {β : Type} (m : List (String × β)) (k : String) (v : β) :
    mapSet (mapSet m k v) k v = mapSet m k v := by
  induction m with
  | nil => simp [mapSet]
  | cons p rest ih =>
    obtain ⟨k1, v1⟩ := p
    by_cases h : k1 = k
    · simp [mapSet, h]
    · simp [mapSet, h, ih]

theorem filter_ne_id_idem (l : List MainSubscriber) (cid : Nat) :
    (l.filter fun s => s.id ≠ cid).filter (fun s => s.id ≠ cid) =
      l.filter fun s => s.id ≠ cid := by
  rw [List.filter_eq_self]
  intro a ha
  exact (List.mem_filter.mp ha).2

theorem filter_ne_id_idem_nat (l : List Nat) (sid : Nat) :
    (l.filter fun j => j ≠ sid).filter (fun j => j ≠ sid) = l.filter fun j => j ≠ sid := by
  rw [List.filter_eq_self]
  intro a ha
  exact (List.mem_filter.mp ha).2

/-- The unsubscribe closure produced by part_000 `internalSubscribe`
(lines 274–280): delete this subscriber object from the query's `Set`,
then drop the query entirely if that left the set empty. Subscriber
objects are abstracted by identifiers. -/
def p0Unsub (subs : List (String × List Nat)) (query : String) (sid : Nat) :
    List (String × List Nat) :=
  match mapGet subs query with
  | none => subs
  | some set =>
    let remaining := set.filter (fun j => j ≠ sid)
    if remaining.isEmpty then mapDelete subs query
    else mapSet subs query remaining

/-- C9: unsubscribing is idempotent in both variants — repeating the
private `unsubscribe`, repeating `handle.unsubscribe()`, or calling
`handle.unsubscribe()` after a bulk removal (`unsubscribeAll`, with or
without a key) never changes the state again; all of these are total
functions, so no error can be raised. -/
theorem unsubscribe_idempotent {α : Type} (st : HubState α) (q : String) (cid : Nat)
    (h : MainHandle) (p0subs : List (String × List Nat)) (sid : Nat) :
    unsubscribeM (unsubscribeM st q cid) q cid = unsubscribeM st q cid ∧
    handleUnsubscribe (handleUnsubscribe st h) h = handleUnsubscribe st h ∧
    handleUnsubscribe (clearSubscribers st) h = clearSubscribers st ∧
    handleUnsubscribe (unsubscribeAllFor st h.query) h = unsubscribeAllFor st h.query ∧
    p0Unsub (p0Unsub p0subs q sid) q sid = p0Unsub p0subs q sid := by
  have main_idem : ∀ (st0 : HubState α) (q0 : String) (c0 : Nat),
      unsubscribeM (unsubscribeM st0 q0 c0) q0 c0 = unsubscribeM st0 q0 c0 := by
    intro st0 q0 c0
    rcases heq : mapGet st0.subscribers q0 with _ | callbacks
    · simp [unsubscribeM, heq]
    · by_cases hemp : (callbacks.filter fun s => s.id ≠ c0).isEmpty
      · simp only [unsubscribeM, heq, hemp, if_true]
        simp [unsubscribeM, mapGet_mapDelete_self]
      · simp only [unsubscribeM, heq, hemp, Bool.false_eq_true, if_false]
        simp only [unsubscribeM, mapGet_mapSet_self, filter_ne_id_idem, hemp,
          Bool.false_eq_true, if_false, mapSet_mapSet]
  refine ⟨main_idem st q cid, ?_, ?_, ?_, ?_⟩
  · by_cases hm : h.manual
    · simp [handleUnsubscribe, hm, main_idem]
    · simp [handleUnsubscribe, hm]
  · by_cases hm : h.manual
    · simp [handleUnsubscribe, hm, unsubscribeM, clearSubscribers, mapGet]
    · simp [handleUnsubscribe, hm]
  · by_cases hm : h.manual
    · simp [handleUnsubscribe, hm, unsubscribeM, unsubscribeAllFor, mapGet_mapDelete_self]
    · simp [handleUnsubscribe, hm]
  · rcases heq : mapGet p0subs q with _ | set
    · simp [p0Unsub, heq]
    · by_cases hemp : (set.filter fun j => j ≠ sid).isEmpty
      · simp only [p0Unsub, heq, hemp, if_true]
        simp [p0Unsub, mapGet_mapDelete_self]
      · simp only [p0Unsub, heq, hemp, Bool.false_eq_true, if_false]
        simp only [p0Unsub, mapGet_mapSet_self, filter_ne_id_idem_nat, hemp,
          Bool.false_eq_true, if_false, mapSet_mapSet]

/-- A subscriber entry is currently registered under a query. -/
def entryPresent {α : Type} (st : HubState α) (q : String) (s : MainSubscriber) : Prop :=
  ∃ cs, mapGet st.subscribers q = some cs ∧ s ∈ cs

theorem mapSet_mem_self {β : Type} (m : List (String × β)) (k : String) (v : β) :
    (k, v) ∈ mapSet m k v := by
  induction m with
  | nil => simp [mapSet]
  | cons p rest ih =>
    obtain ⟨k1, v1⟩ := p
    by_cases h : k1 = k <;> simp [mapSet, h, ih]

/-- C10: in the queued-dispatch variant, a subscription created with a
`DestroyRef` yields a handle whose `unsubscribe` is a no-op — the whole
state, including the subscriber registry, is left unchanged, the entry
stays registered and is still invoked by any matching dispatch — while the
teardown hook registered on the `DestroyRef` is what removes the entry
when it fires. -/
theorem destroyRef_scoped_unsubscribe {α : Type} (st : HubState α) (key : String)
    (s : MainSubscriber) (st1 : HubState α) (h1 : MainHandle)
    (heq : internalSubscribe st key s true = (st1, h1)) :
    h1.manual = false ∧
    handleUnsubscribe st1 h1 = st1 ∧
    entryPresent st1 key s ∧
    (∀ ekey, matchQuery ekey key = true →
      NotifyEffect.invoked s.id ∈ notify st1.subscribers ekey) ∧
    (key, s.id) ∈ st1.destroyHooks ∧
    ¬ entryPresent (destroyFireOne st1 key s.id) key s := by
  have hpair : st1 = { st with
      subscribers := mapSet st.subscribers key (((mapGet st.subscribers key).getD []) ++ [s]),
      destroyHooks := st.destroyHooks ++ [(key, s.id)] } ∧ h1 = ⟨key, s.id, false⟩ := by
    have := heq.symm
    simp only [internalSubscribe, if_true] at this
    exact ⟨congrArg Prod.fst this, congrArg Prod.snd this⟩
  obtain ⟨hst1, hh1⟩ := hpair
  subst hst1
  subst hh1
  have hget : mapGet (mapSet st.subscribers key (((mapGet st.subscribers key).getD []) ++ [s])) key =
      some (((mapGet st.subscribers key).getD []) ++ [s]) := mapGet_mapSet_self _ _ _
  refine ⟨rfl, by simp [handleUnsubscribe], ⟨_, hget, by simp⟩, ?_, by simp, ?_⟩
  · intro ekey hm
    rw [mem_notify_iff]
    exact ⟨key, _, s, mapSet_mem_self _ _ _, hm, by simp, by
      simpa using (invoked_mem_dispatchEntry s s.id).mpr rfl⟩
  · rintro ⟨cs, hcs, hmem⟩
    simp only [destroyFireOne, unsubscribeM, hget] at hcs
    by_cases hemp : ((((mapGet st.subscribers key).getD []) ++ [s]).filter
        fun t => t.id ≠ s.id).isEmpty
    · rw [if_pos hemp] at hcs
      simp only [mapGet_mapDelete_self] at hcs
      exact Option.noConfusion hcs
    · rw [if_neg hemp] at hcs
      simp only [mapGet_mapSet_self, Option.some.injEq] at hcs
      subst hcs
      have := (List.mem_filter.mp hmem).2
      simp at this

theorem destroyRef_scoped_unsubscribe_witness :
    (internalSubscribe (⟨[], [], [], []⟩ : HubState Nat) "k" ⟨0, false, false⟩ true).2.manual
        = false ∧
    handleUnsubscribe (internalSubscribe (⟨[], [], [], []⟩ : HubState Nat) "k"
        ⟨0, false, false⟩ true).1
        (internalSubscribe (⟨[], [], [], []⟩ : HubState Nat) "k" ⟨0, false, false⟩ true).2 =
      (internalSubscribe (⟨[], [], [], []⟩ : HubState Nat) "k" ⟨0, false, false⟩ true).1 ∧
    NotifyEffect.invoked 0 ∈ notify
      (internalSubscribe (⟨[], [], [], []⟩ : HubState Nat) "k"
        ⟨0, false, false⟩ true).1.subscribers "k" := by
  have h := destroyRef_scoped_unsubscribe (⟨[], [], [], []⟩ : HubState Nat) "k"
    ⟨0, false, false⟩ _ _ rfl
  exact ⟨h.1, h.2.1, h.2.2.2.1 "k" (by decide)⟩

/-- Observable run of the `once` wrapper of the queued-dispatch variant
(signal-bus.service.ts lines 314–331): `hasRun` is the wrapper's guard,
`subscribed` records whether the entry is still in the registry, `calls`
counts invocations of the user callback. -/
structure OnceState where
  hasRun : Bool
  subscribed : Bool
  calls : Nat
deriving DecidableEq

/-- One invocation of the wrapped callback (lines 321–326). Because
dispatch defers callback bodies to microtasks, an invocation may still run
after the entry was removed; the `hasRun` guard is checked first, then the
wrapper unsubscribes and only afterwards calls the user callback. -/
def onceInvoke (s : OnceState) : OnceState :=
  if s.hasRun then s
  else { hasRun := true, subscribed := false, calls := s.calls + 1 }

/-- State of a fresh `once` subscription (lines 315–317). -/
def onceInit : OnceState := ⟨false, true, 0⟩

/-- Observable run of the part_000 `once` wrapper (part_000 lines
139–151): dispatch is synchronous, so an invocation only happens while the
entry is still registered; the wrapper unsubscribes first and then calls
the user callback. -/
structure P0OnceState where
  subscribed : Bool
  calls : Nat
deriving DecidableEq

/-- One delivery of a matching publish to the part_000 `once`
subscription (lines 141–148). -/
def p0OnceDeliver (s : P0OnceState) : P0OnceState :=
  if s.subscribed then { subscribed := false, calls := s.calls + 1 } else s

/-- Observable run of the `onceAsync` wrapper (signal-bus.service.ts
lines 349–366): the wrapped callback awaits the user callback and only
then unsubscribes. `pending` counts invocations whose trailing
unsubscribe step has not run yet. -/
structure OnceAsyncState where
  subscribed : Bool
  calls : Nat
  pending : Nat
deriving DecidableEq

/-- Scheduler steps for `onceAsync`: `deliver` is the dispatch of a
matching publish, which invokes the wrapped callback whenever the entry is
still registered (lines 358–361) and leaves one unsubscribe pending;
`settle` is the resolution of an awaited user callback, at which point the
wrapper finally unsubscribes (line 360). Two publishes dispatched
back-to-back are two `deliver` steps before the first `settle`. -/
inductive OnceAsyncStep where
  | deliver
  | settle
deriving DecidableEq

def onceAsyncStep (s : OnceAsyncState) : OnceAsyncStep → OnceAsyncState
  | .deliver =>
    if s.subscribed then { s with calls := s.calls + 1, pending := s.pending + 1 } else s
  | .settle =>
    if s.pending > 0 then ⟨false, s.calls, s.pending - 1⟩ else s

/-- Run an `onceAsync` subscription, freshly registered, through a list of
scheduler steps. -/
def onceAsyncRun (steps : List OnceAsyncStep) : OnceAsyncState :=
  steps.foldl onceAsyncStep ⟨true, 0, 0⟩

/-- C1 counterexample: under `onceAsync`, two publishes dispatched
back-to-back before the first callback resolves invoke the user callback
twice — the entry is removed only after the first callback settles, not
before or atomically with its invocation, so the once-style guarantee
fails as stated. -/
theorem onceAsync_double_delivery :
    (onceAsyncRun [.deliver, .deliver, .settle, .settle]).calls = 2 ∧
    (onceAsyncRun [.deliver, .deliver, .settle, .settle]).calls ≠ 1 := by
  constructor <;> decide

theorem onceInvoke_fixed (m : Nat) :
    onceInvoke^[m] ⟨true, false, 1⟩ = ⟨true, false, 1⟩ := by
  induction m with
  | zero => rfl
  | succ n ih => rw [Function.iterate_succ_apply, show onceInvoke ⟨true, false, 1⟩ =
      ⟨true, false, 1⟩ from rfl, ih]

theorem p0OnceDeliver_fixed (m : Nat) :
    p0OnceDeliver^[m] ⟨false, 1⟩ = ⟨false, 1⟩ := by
  induction m with
  | zero => rfl
  | succ n ih => rw [Function.iterate_succ_apply, show p0OnceDeliver ⟨false, 1⟩ =
      ⟨false, 1⟩ from rfl, ih]

/-- C1 (amended): for the synchronous `once` wrappers — the queued
variant's `once`, whose `hasRun` guard flips and whose unsubscribe runs
before the user callback, and part_000's `once`, which unsubscribes before
invoking — any positive number of deliveries, including deliveries
dispatched back-to-back, yields exactly one user-callback invocation;
`onceAsync` does not share this guarantee. -/
theorem once_exactly_once (n : Nat) (hn : 1 ≤ n) :
    (onceInvoke^[n] onceInit).calls = 1 ∧
    (p0OnceDeliver^[n] ⟨true, 0⟩).calls = 1 := by
  obtain ⟨m, rfl⟩ : ∃ m, n = m + 1 := ⟨n - 1, by omega⟩
  constructor
  · rw [Function.iterate_succ_apply, show onceInvoke onceInit = ⟨true, false, 1⟩ from rfl,
      onceInvoke_fixed]
  · rw [Function.iterate_succ_apply, show p0OnceDeliver ⟨true, 0⟩ = ⟨false, 1⟩ from rfl,
      p0OnceDeliver_fixed]

theorem once_exactly_once_witness :
    1 ≤ 3 ∧ (onceInvoke^[3] onceInit).calls = 1 ∧
      (p0OnceDeliver^[3] (⟨true, 0⟩ : P0OnceState)).calls = 1 :=
  ⟨by decide, once_exactly_once 3 (by decide)⟩

/-- The `combinedSignal` computed by part_000 `onCombineLatest`
(lines 157–168) with no `sortBy` option: read each key's latest event,
keep the non-null ones, and expose the list only when every requested key
resolved. -/
def combinedSignal {α : Type} (reg : List (String × HubEvent α)) (keys : List String) :
    Option (List (HubEvent α)) :=
  let events := keys.filterMap (fun k => mapGet reg k)
  if events.length = keys.length then some events else none

/-- One run of the `onCombineLatest` effect body (part_000 lines
170–185): no callback while the combined signal is null; the
`!replayLatest && registry empty` guard; otherwise the callback is invoked
with the combined events. The returned option is the callback invocation
(its argument) performed by this run. -/
def combineEffectRun {α : Type} (replayLatest : Bool) (reg : List (String × HubEvent α))
    (keys : List String) : Option (List (HubEvent α)) :=
  match combinedSignal reg keys with
  | none => none
  | some evs => if !replayLatest && reg.isEmpty then none else some evs

/-- part_000 `publish` (lines 72–78) writes the event into the registry
synchronously; the watching effect then reruns once. This is one
publish-then-effect step; the second component is the callback invocation
of that effect run, if any. -/
def combineStep {α : Type} (replayLatest : Bool) (keys : List String)
    (reg : List (String × HubEvent α)) (k : String) (d : α) (t : Nat) :
    List (String × HubEvent α) × Option (List (HubEvent α)) :=
  let reg' := mapSet reg k ⟨k, d, t⟩
  (reg', combineEffectRun replayLatest reg' keys)

/-- Run a sequence of publishes through `combineStep`, collecting every
callback invocation in order. -/
def combineSim {α : Type} (replayLatest : Bool) (keys : List String) :
    List (String × α × Nat) → List (String × HubEvent α) →
      List (String × HubEvent α) × List (List (HubEvent α))
  | [], reg => (reg, [])
  | (k, d, t) :: rest, reg =>
    let s := combineStep replayLatest keys reg k d t
    let r := combineSim replayLatest keys rest s.1
    (r.1, s.2.toList ++ r.2)

theorem filterMap_length_lt_of_none {α : Type} (keys : List String)
    (f : String → Option α) (k0 : String) (hk : k0 ∈ keys) (hf : f k0 = none) :
    (keys.filterMap f).length ≠ keys.length := by
  induction keys with
  | nil => cases hk
  | cons k ks ih =>
    have hle : ∀ l : List String, (l.filterMap f).length ≤ l.length :=
      fun l => List.length_filterMap_le f l
    rcases List.mem_cons.mp hk with rfl | hk2
    · simp only [List.filterMap_cons, hf, List.length_cons]
      have := hle ks
      omega
    · cases hfk : f k with
      | none =>
        simp only [List.filterMap_cons, hfk, List.length_cons]
        have := hle ks
        omega
      | some v =>
        simp only [List.filterMap_cons, hfk, List.length_cons]
        have := ih hk2
        omega

theorem combinedSignal_none_of_missing {α : Type} (reg : List (String × HubEvent α))
    (keys : List String) (k0 : String) (hk : k0 ∈ keys) (hm : mapGet reg k0 = none) :
    combinedSignal reg keys = none := by
  simp only [combinedSignal]
  rw [if_neg (filterMap_length_lt_of_none keys _ k0 hk hm)]

/-- C6: for `onCombineLatest` on `["x", "y"]` — the callback never fires
while either constituent key lacks a latest event; starting from an empty
registry, a sequence of publishes that only touches `x` produces no
invocation at all; a publish to `y` while `x` has a latest event invokes
the callback exactly once in that effect run, with the latest `x` event
and the just-published `y` event; and a subsequent publish to `x` invokes
it again with the updated `x` event and the still-latest `y` event. -/
theorem combineLatest_ready_semantics {α : Type} (replayLatest : Bool)
    (reg : List (String × HubEvent α)) (ex ey : HubEvent α) (dy d3 : α) (ty t3 : Nat) :
    (∀ reg' : List (String × HubEvent α), mapGet reg' "y" = none →
      combineEffectRun replayLatest reg' ["x", "y"] = none) ∧
    (∀ reg' : List (String × HubEvent α), mapGet reg' "x" = none →
      combineEffectRun replayLatest reg' ["x", "y"] = none) ∧
    (∀ pubs : List (α × Nat),
      (combineSim replayLatest ["x", "y"]
        (pubs.map (fun p => ("x", p.1, p.2))) []).2 = []) ∧
    (mapGet reg "x" = some ex →
      combineStep replayLatest ["x", "y"] reg "y" dy ty =
        (mapSet reg "y" ⟨"y", dy, ty⟩, some [ex, ⟨"y", dy, ty⟩])) ∧
    (mapGet reg "y" = some ey →
      combineStep replayLatest ["x", "y"] reg "x" d3 t3 =
        (mapSet reg "x" ⟨"x", d3, t3⟩, some [⟨"x", d3, t3⟩, ey])) := by
  have hy_none : ∀ reg' : List (String × HubEvent α), mapGet reg' "y" = none →
      combineEffectRun replayLatest reg' ["x", "y"] = none := by
    intro reg' hm
    have := combinedSignal_none_of_missing reg' ["x", "y"] "y" (by simp) hm
    simp [combineEffectRun, this]
  refine ⟨hy_none, ?_, ?_, ?_, ?_⟩
  · intro reg' hm
    have := combinedSignal_none_of_missing reg' ["x", "y"] "x" (by simp) hm
    simp [combineEffectRun, this]
  · intro pubs
    suffices h : ∀ (pubs : List (α × Nat)) (reg0 : List (String × HubEvent α)),
        mapGet reg0 "y" = none →
        (combineSim replayLatest ["x", "y"] (pubs.map (fun p => ("x", p.1, p.2))) reg0).2
          = [] by
      exact h pubs [] rfl
    intro pubs
    induction pubs with
    | nil => intro reg0 _; rfl
    | cons p rest ih =>
      intro reg0 hy
      have hy' : mapGet (mapSet reg0 "x" ⟨"x", p.1, p.2⟩) "y" = none := by
        rw [mapGet_mapSet_ne _ _ _ _ (by decide)]
        exact hy
      simp only [List.map_cons, combineSim, combineStep]
      rw [hy_none _ hy']
      simpa using ih _ hy'
  · intro hx
    have hx' : mapGet (mapSet reg "y" (⟨"y", dy, ty⟩ : HubEvent α)) "x" = some ex := by
      rw [mapGet_mapSet_ne _ _ _ _ (by decide)]
      exact hx
    have hy' : mapGet (mapSet reg "y" (⟨"y", dy, ty⟩ : HubEvent α)) "y" =
        some ⟨"y", dy, ty⟩ := mapGet_mapSet_self _ _ _
    have hne := mapSet_ne_nil reg "y" (⟨"y", dy, ty⟩ : HubEvent α)
    simp only [combineStep, combineEffectRun, combinedSignal, List.filterMap_cons, hx', hy',
      List.filterMap_nil]
    simp [List.isEmpty_iff, hne]
  · intro hy
    have hy' : mapGet (mapSet reg "x" (⟨"x", d3, t3⟩ : HubEvent α)) "y" = some ey := by
      rw [mapGet_mapSet_ne _ _ _ _ (by decide)]
      exact hy
    have hx' : mapGet (mapSet reg "x" (⟨"x", d3, t3⟩ : HubEvent α)) "x" =
        some ⟨"x", d3, t3⟩ := mapGet_mapSet_self _ _ _
    have hne := mapSet_ne_nil reg "x" (⟨"x", d3, t3⟩ : HubEvent α)
    simp only [combineStep, combineEffectRun, combinedSignal, List.filterMap_cons, hx', hy',
      List.filterMap_nil]
    simp [List.isEmpty_iff, hne]

theorem combineLatest_ready_semantics_witness :
    combineEffectRun false [("x", (⟨"x", 1, 10⟩ : HubEvent Nat))] ["x", "y"] = none ∧
    (combineSim false ["x", "y"] ([((5 : Nat), 1)].map (fun p => ("x", p.1, p.2)))
      ([] : List (String × HubEvent Nat))).2 = [] ∧
    combineStep false ["x", "y"] [("x", (⟨"x", 1, 10⟩ : HubEvent Nat))] "y" 2 20 =
      (mapSet [("x", ⟨"x", 1, 10⟩)] "y" ⟨"y", 2, 20⟩,
        some [⟨"x", 1, 10⟩, ⟨"y", 2, 20⟩]) ∧
    combineStep false ["x", "y"]
        [("x", (⟨"x", 1, 10⟩ : HubEvent Nat)), ("y", ⟨"y", 2, 20⟩)] "x" 3 30 =
      (mapSet [("x", ⟨"x", 1, 10⟩), ("y", ⟨"y", 2, 20⟩)] "x" ⟨"x", 3, 30⟩,
        some [⟨"x", 3, 30⟩, ⟨"y", 2, 20⟩]) := by
  have h1 := combineLatest_ready_semantics (α := Nat) false
    [("x", ⟨"x", 1, 10⟩)] ⟨"x", 1, 10⟩ ⟨"x", 1, 10⟩ 2 2 20 20
  have h2 := combineLatest_ready_semantics (α := Nat) false
    [("x", ⟨"x", 1, 10⟩), ("y", ⟨"y", 2, 20⟩)] ⟨"x", 1, 10⟩ ⟨"y", 2, 20⟩ 3 3 30 30
  exact ⟨h1.1 [("x", ⟨"x", 1, 10⟩)] (by decide), h1.2.2.1 [(5, 1)],
    h1.2.2.2.1 (by decide), h2.2.2.2.2 (by decide)⟩

/-- Does the query entry `q` select the stored key `k`, following the two
branches of part_000 `toSignalMultiple` (lines 213–228): wildcard entries
are tested with the compiled regex, other entries by exact lookup. -/
def entryHit (q k : String) : Bool :=
  if q.data.contains '*' then regexTest q k else decide (q = k)

/-- The `matchingEvents` accumulation loop of part_000 `toSignalMultiple`
(lines 211–229): skip empty entries, expand wildcard entries against every
stored key, otherwise look up the exact key; results are deduplicated by
storing them in a `Map` keyed by the event key. -/
def tsmCollect {α : Type} (reg : List (String × HubEvent α)) :
    List String → List (String × HubEvent α) → List (String × HubEvent α)
  | [], acc => acc
  | q :: qs, acc =>
    if q = "" then tsmCollect reg qs acc
    else if q.data.contains '*' then
      tsmCollect reg qs
        (reg.foldl (fun a p => if regexTest q p.1 then mapSet a p.1 p.2 else a) acc)
    else
      match mapGet reg q with
      | some e => tsmCollect reg qs (mapSet acc e.key e)
      | none => tsmCollect reg qs acc

/-- Sort order option of part_000 `toSignalMultiple` (line 205). -/
inductive SortBy where
  | timestamp
  | key
deriving DecidableEq

/-- Comparator `(a, b) => b.timestamp - a.timestamp` (line 233): earlier
position means a timestamp at least as large — descending order. -/
def tsDescRel {α : Type} (a b : HubEvent α) : Prop :=
  b.timestamp ≤ a.timestamp

/-- Comparator `(a, b) => a.key.localeCompare(b.key)` (line 236):
lexicographic ascending order on keys. -/
def keyAscRel {α : Type} (a b : HubEvent α) : Prop :=
  a.key ≤ b.key

instance {α : Type} : DecidableRel (tsDescRel (α := α)) :=
  fun a b => inferInstanceAs (Decidable (b.timestamp ≤ a.timestamp))

instance {α : Type} : DecidableRel (keyAscRel (α := α)) :=
  fun a b => inferInstanceAs (Decidable (a.key ≤ b.key))

instance {α : Type} : IsTotal (HubEvent α) tsDescRel :=
  ⟨fun a b => le_total b.timestamp a.timestamp⟩

instance {α : Type} : IsTrans (HubEvent α) tsDescRel :=
  ⟨fun _ _ _ hab hbc => le_trans hbc hab⟩

instance {α : Type} : IsTotal (HubEvent α) keyAscRel :=
  ⟨fun a b => le_total a.key b.key⟩

instance {α : Type} : IsTrans (HubEvent α) keyAscRel :=
  ⟨fun _ _ _ hab hbc => le_trans hab hbc⟩

/-- part_000 `toSignalMultiple` (lines 203–240): reject an empty key list,
collect matching events (deduplicated by key), and return the values,
optionally sorted by timestamp descending or by key ascending. -/
def toSignalMultipleP0 {α : Type} (reg : List (String × HubEvent α)) (keys : List String)
    (sortBy : Option SortBy) : Except String (List (HubEvent α)) :=
  if keys.isEmpty then .error "Keys array cannot be empty"
  else
    let eventsArray := (tsmCollect reg keys []).map Prod.snd
    .ok (match sortBy with
      | some .timestamp => List.insertionSort tsDescRel eventsArray
      | some .key => List.insertionSort keyAscRel eventsArray
      | none => eventsArray)

/-- The queued-dispatch variant's `toSignalMultiple`
(signal-bus.service.ts lines 399–406): rejects empty lists and empty
entries, then performs exact lookups only. -/
def toSignalMultipleMain {α : Type} (reg : List (String × HubEvent α)) (keys : List String) :
    Except String (List (HubEvent α)) :=
  if keys.isEmpty then .error "Keys array cannot be empty"
  else if keys.any (fun k => k = "") then .error "All keys must be non-empty"
  else .ok (keys.filterMap (fun k => mapGet reg k))

/-- C7 counterexample: the wildcard-expanding `toSignalMultiple` of
part_000 does not reject a key list containing an empty entry — on a
registry holding one event for key `a`, the list `["a", ""]` succeeds (the
empty entry is skipped) instead of failing with the invalid-key-list
error. -/
theorem toSignalMultiple_empty_entry_accepted :
    toSignalMultipleP0 [("a", (⟨"a", 0, 1⟩ : HubEvent Nat))] ["a", ""] none =
      .ok [⟨"a", 0, 1⟩] := by
  rfl

theorem mapGet_mem {β : Type} (m : List (String × β)) (q : String) (v : β)
    (h : mapGet m q = some v) : (q, v) ∈ m := by
  induction m with
  | nil => simp [mapGet] at h
  | cons p rest ih =>
    obtain ⟨k1, v1⟩ := p
    by_cases hk : k1 = q
    · subst hk
      simp [mapGet] at h
      simp [h]
    · simp only [mapGet, if_neg hk] at h
      exact List.mem_cons_of_mem _ (ih h)

theorem mapGet_none_not_mem {β : Type} (m : List (String × β)) (q : String) (v : β)
    (h : mapGet m q = none) : (q, v) ∉ m := by
  induction m with
  | nil => simp
  | cons p rest ih =>
    obtain ⟨k1, v1⟩ := p
    by_cases hk : k1 = q
    · subst hk
      simp [mapGet] at h
    · simp only [mapGet, if_neg hk] at h
      intro hmem
      rcases List.mem_cons.mp hmem with heq | hmem2
      · have hq : q = k1 := congrArg Prod.fst heq
        exact hk hq.symm
      · exact ih h hmem2

theorem mem_mapGet {β : Type} (m : List (String × β)) (q : String) (v : β)
    (hnd : (m.map Prod.fst).Nodup) (h : (q, v) ∈ m) : mapGet m q = some v := by
  induction m with
  | nil => cases h
  | cons p rest ih =>
    obtain ⟨k1, v1⟩ := p
    simp only [List.map_cons, List.nodup_cons] at hnd
    rcases List.mem_cons.mp h with heq | hmem
    · have h1 : q = k1 := congrArg Prod.fst heq
      have h2 : v = v1 := congrArg Prod.snd heq
      subst h1
      subst h2
      simp [mapGet]
    · have hk : k1 ≠ q := by
        intro hk
        subst hk
        exact hnd.1 (List.mem_map.mpr ⟨(k1, v), hmem, rfl⟩)
      simp only [mapGet, if_neg hk]
      exact ih hnd.2 hmem

theorem assoc_unique {β : Type} (m : List (String × β)) (q : String) (v w : β)
    (hnd : (m.map Prod.fst).Nodup) (hv : (q, v) ∈ m) (hw : (q, w) ∈ m) : v = w := by
  have h1 := mem_mapGet m q v hnd hv
  have h2 := mem_mapGet m q w hnd hw
  rw [h1] at h2
  exact Option.some.inj h2

theorem mapSet_eq_self_of_mem {β : Type} (m : List (String × β)) (k : String) (v : β)
    (hnd : (m.map Prod.fst).Nodup) (h : (k, v) ∈ m) : mapSet m k v = m := by
  induction m with
  | nil => cases h
  | cons p rest ih =>
    obtain ⟨k1, v1⟩ := p
    simp only [List.map_cons, List.nodup_cons] at hnd
    rcases List.mem_cons.mp h with heq | hmem
    · have h1 : k = k1 := congrArg Prod.fst heq
      have h2 : v = v1 := congrArg Prod.snd heq
      subst h1
      subst h2
      simp [mapSet]
    · have hk : k1 ≠ k := by
        intro hk
        subst hk
        exact hnd.1 (List.mem_map.mpr ⟨(k1, v), hmem, rfl⟩)
      simp only [mapSet, if_neg hk, List.cons.injEq, true_and]
      exact ih hnd.2 hmem

theorem mapSet_eq_append_of_not_mem {β : Type} (m : List (String × β)) (k : String) (v : β)
    (h : k ∉ m.map Prod.fst) : mapSet m k v = m ++ [(k, v)] := by
  induction m with
  | nil => simp [mapSet]
  | cons p rest ih =>
    obtain ⟨k1, v1⟩ := p
    simp only [List.map_cons, List.mem_cons] at h
    push_neg at h
    simp only [mapSet, if_neg (Ne.symm h.1), List.cons_append, List.cons.injEq, true_and]
    exact ih h.2

/-- Invariant of the `matchingEvents` accumulator: keys are unique (it is
a `Map`) and every stored pair comes from the registry. -/
def accOK {α : Type} (reg acc : List (String × HubEvent α)) : Prop :=
  (acc.map Prod.fst).Nodup ∧ ∀ p ∈ acc, p ∈ reg

theorem accOK_mapSet {α : Type} (reg acc : List (String × HubEvent α)) (k : String)
    (e : HubEvent α) (hreg : (reg.map Prod.fst).Nodup) (hacc : accOK reg acc)
    (hp : (k, e) ∈ reg) :
    accOK reg (mapSet acc k e) ∧
      ∀ x, x ∈ mapSet acc k e ↔ x ∈ acc ∨ x = (k, e) := by
  by_cases hk : k ∈ acc.map Prod.fst
  · obtain ⟨⟨pk, pv⟩, hpair, hfst⟩ := List.mem_map.mp hk
    have hfst' : pk = k := hfst
    rw [hfst'] at hpair
    have hpv : pv = e := assoc_unique reg k pv e hreg (hacc.2 _ hpair) hp
    rw [hpv] at hpair
    rw [mapSet_eq_self_of_mem acc k e hacc.1 hpair]
    refine ⟨hacc, fun x => ?_⟩
    constructor
    · exact fun hx => Or.inl hx
    · rintro (hx | rfl)
      · exact hx
      · exact hpair
  · rw [mapSet_eq_append_of_not_mem acc k e hk]
    refine ⟨⟨?_, ?_⟩, fun x => ?_⟩
    · simpa [List.nodup_append, hacc.1] using hk
    · intro p hq
      rcases List.mem_append.mp hq with h1 | h2
      · exact hacc.2 p h1
      · rw [List.mem_singleton.mp h2]
        exact hp
    · simp [List.mem_append]

theorem tsmFoldWild {α : Type} (reg : List (String × HubEvent α)) (q : String)
    (hreg : (reg.map Prod.fst).Nodup) (l : List (String × HubEvent α)) :
    ∀ acc : List (String × HubEvent α), (∀ p ∈ l, p ∈ reg) → accOK reg acc →
      accOK reg (l.foldl (fun a p => if regexTest q p.1 then mapSet a p.1 p.2 else a) acc) ∧
      ∀ x, (x ∈ l.foldl (fun a p => if regexTest q p.1 then mapSet a p.1 p.2 else a) acc ↔
        x ∈ acc ∨ (x ∈ l ∧ regexTest q x.1 = true)) := by
  induction l with
  | nil =>
    intro acc _ hacc
    exact ⟨hacc, by simp⟩
  | cons r rest ih =>
    obtain ⟨rk, re⟩ := r
    intro acc hl hacc
    simp only [List.foldl_cons]
    by_cases hq : regexTest q rk = true
    · rw [if_pos hq]
      obtain ⟨hacc', hmem'⟩ :=
        accOK_mapSet reg acc rk re hreg hacc (hl (rk, re) (by simp))
      obtain ⟨hfin, hmemf⟩ := ih _ (fun p hp => hl p (List.mem_cons_of_mem _ hp)) hacc'
      refine ⟨hfin, fun x => ?_⟩
      rw [hmemf x, hmem' x]
      constructor
      · rintro ((hx | rfl) | ⟨hx, hhit⟩)
        · exact Or.inl hx
        · exact Or.inr ⟨by simp, hq⟩
        · exact Or.inr ⟨List.mem_cons_of_mem _ hx, hhit⟩
      · rintro (hx | ⟨hx, hhit⟩)
        · exact Or.inl (Or.inl hx)
        · rcases List.mem_cons.mp hx with rfl | hx2
          · exact Or.inl (Or.inr rfl)
          · exact Or.inr ⟨hx2, hhit⟩
    · rw [if_neg hq]
      obtain ⟨hfin, hmemf⟩ := ih acc (fun p hp => hl p (List.mem_cons_of_mem _ hp)) hacc
      refine ⟨hfin, fun x => ?_⟩
      rw [hmemf x]
      constructor
      · rintro (hx | ⟨hx, hhit⟩)
        · exact Or.inl hx
        · exact Or.inr ⟨List.mem_cons_of_mem _ hx, hhit⟩
      · rintro (hx | ⟨hx, hhit⟩)
        · exact Or.inl hx
        · rcases List.mem_cons.mp hx with rfl | hx2
          · exact absurd hhit hq
          · exact Or.inr ⟨hx2, hhit⟩

theorem tsmCollect_spec {α : Type} (reg : List (String × HubEvent α))
    (hreg : (reg.map Prod.fst).Nodup) (hwf : ∀ p ∈ reg, p.2.key = p.1)
    (keys : List String) :
    ∀ acc : List (String × HubEvent α), accOK reg acc →
      accOK reg (tsmCollect reg keys acc) ∧
      ∀ x, (x ∈ tsmCollect reg keys acc ↔
        x ∈ acc ∨ (x ∈ reg ∧ ∃ q ∈ keys, q ≠ "" ∧ entryHit q x.1 = true)) := by
  induction keys with
  | nil =>
    intro acc hacc
    exact ⟨hacc, fun x => by simp [tsmCollect]⟩
  | cons q qs ih =>
    intro acc hacc
    by_cases hq0 : q = ""
    · rw [show tsmCollect reg (q :: qs) acc = tsmCollect reg qs acc by
        rw [tsmCollect, if_pos hq0]]
      obtain ⟨hfin, hmem⟩ := ih acc hacc
      refine ⟨hfin, fun x => ?_⟩
      rw [hmem x]
      constructor
      · rintro (hx | ⟨hx, q2, hq2, hne, hhit⟩)
        · exact Or.inl hx
        · exact Or.inr ⟨hx, q2, List.mem_cons_of_mem _ hq2, hne, hhit⟩
      · rintro (hx | ⟨hx, q2, hq2, hne, hhit⟩)
        · exact Or.inl hx
        · rcases List.mem_cons.mp hq2 with heq2 | h2
          · rw [heq2] at hne
            exact absurd hq0 hne
          · exact Or.inr ⟨hx, q2, h2, hne, hhit⟩
    · by_cases hqw : q.data.contains '*' = true
      · rw [show tsmCollect reg (q :: qs) acc = tsmCollect reg qs
            (reg.foldl (fun a p => if regexTest q p.1 then mapSet a p.1 p.2 else a) acc) by
          rw [tsmCollect, if_neg hq0, if_pos hqw]]
        obtain ⟨hacc2, hmemF⟩ := tsmFoldWild reg q hreg reg acc (fun p hp => hp) hacc
        obtain ⟨hfin, hmem⟩ := ih _ hacc2
        refine ⟨hfin, fun x => ?_⟩
        rw [hmem x, hmemF x]
        have hhitq : entryHit q x.1 = regexTest q x.1 := by
          rw [entryHit, if_pos hqw]
        constructor
        · rintro ((hx | ⟨hxr, hhit⟩) | ⟨hx, q2, hq2, hne, hhit⟩)
          · exact Or.inl hx
          · exact Or.inr ⟨hxr, q, List.mem_cons_self _ _, hq0, hhitq.trans hhit⟩
          · exact Or.inr ⟨hx, q2, List.mem_cons_of_mem _ hq2, hne, hhit⟩
        · rintro (hx | ⟨hx, q2, hq2, hne, hhit⟩)
          · exact Or.inl (Or.inl hx)
          · rcases List.mem_cons.mp hq2 with heq2 | h2
            · rw [heq2] at hhit
              exact Or.inl (Or.inr ⟨hx, hhitq.symm.trans hhit⟩)
            · exact Or.inr ⟨hx, q2, h2, hne, hhit⟩
      · have hhitq : ∀ y : String × HubEvent α, entryHit q y.1 = decide (q = y.1) := by
          intro y
          rw [entryHit, if_neg hqw]
        cases hget : mapGet reg q with
        | some e =>
          have hqe : (q, e) ∈ reg := mapGet_mem reg q e hget
          have hek : e.key = q := hwf (q, e) hqe
          rw [show tsmCollect reg (q :: qs) acc = tsmCollect reg qs (mapSet acc e.key e) by
            rw [tsmCollect, if_neg hq0, if_neg hqw, hget]]
          rw [hek]
          obtain ⟨hacc2, hmem2⟩ := accOK_mapSet reg acc q e hreg hacc hqe
          obtain ⟨hfin, hmem⟩ := ih _ hacc2
          refine ⟨hfin, fun x => ?_⟩
          obtain ⟨xk, xe⟩ := x
          rw [hmem (xk, xe), hmem2 (xk, xe)]
          constructor
          · rintro ((hx | heq) | ⟨hx, q2, hq2, hne, hhit⟩)
            · exact Or.inl hx
            · have h1 : xk = q := congrArg Prod.fst heq
              have h2 : xe = e := congrArg Prod.snd heq
              subst h1
              subst h2
              refine Or.inr ⟨hqe, xk, List.mem_cons_self _ _, hq0, ?_⟩
              rw [hhitq (xk, xe)]
              simp
            · exact Or.inr ⟨hx, q2, List.mem_cons_of_mem _ hq2, hne, hhit⟩
          · rintro (hx | ⟨hx, q2, hq2, hne, hhit⟩)
            · exact Or.inl (Or.inl hx)
            · rcases List.mem_cons.mp hq2 with heq2 | h2
              · rw [heq2] at hhit
                rw [hhitq (xk, xe)] at hhit
                have hq : q = xk := of_decide_eq_true hhit
                have hmg := mem_mapGet reg xk xe hreg hx
                rw [← hq, hget] at hmg
                have hxe : xe = e := Option.some.inj hmg.symm
                refine Or.inl (Or.inr ?_)
                rw [hxe, ← hq]
              · exact Or.inr ⟨hx, q2, h2, hne, hhit⟩
        | none =>
          rw [show tsmCollect reg (q :: qs) acc = tsmCollect reg qs acc by
            rw [tsmCollect, if_neg hq0, if_neg hqw, hget]]
          obtain ⟨hfin, hmem⟩ := ih acc hacc
          refine ⟨hfin, fun x => ?_⟩
          obtain ⟨xk, xe⟩ := x
          rw [hmem (xk, xe)]
          constructor
          · rintro (hx | ⟨hx, q2, hq2, hne, hhit⟩)
            · exact Or.inl hx
            · exact Or.inr ⟨hx, q2, List.mem_cons_of_mem _ hq2, hne, hhit⟩
          · rintro (hx | ⟨hx, q2, hq2, hne, hhit⟩)
            · exact Or.inl hx
            · rcases List.mem_cons.mp hq2 with heq2 | h2
              · rw [heq2] at hhit
                rw [hhitq (xk, xe)] at hhit
                have hq : q = xk := of_decide_eq_true hhit
                have hmg := mem_mapGet reg xk xe hreg hx
                rw [← hq, hget] at hmg
                exact Option.noConfusion hmg
              · exact Or.inr ⟨hx, q2, h2, hne, hhit⟩

theorem map_key_eq_fst {α : Type} (l : List (String × HubEvent α))
    (h : ∀ p ∈ l, p.2.key = p.1) :
    l.map (fun p => p.2.key) = l.map Prod.fst := by
  induction l with
  | nil => rfl
  | cons p rest ih =>
    simp only [List.map_cons]
    rw [h p (List.mem_cons_self _ _), ih (fun x hx => h x (List.mem_cons_of_mem _ hx))]

/-- C7 (amended): the wildcard-expanding `toSignalMultiple` of part_000
rejects only an empty key list — entries that are empty strings are
silently skipped, not rejected — and on success returns exactly the
de-duplicated union of the events selected by the non-empty entries
(wildcard entries expanded via the compiled matcher against all stored
keys, other entries looked up exactly), omitting keys with no current
event, with at most one event per key, sorted by timestamp descending or
by key ascending when a sort order is requested. The queued-dispatch
variant's `toSignalMultiple` is the one that rejects both an empty list
and a list containing an empty entry. -/
theorem toSignalMultiple_spec {α : Type} (reg : List (String × HubEvent α))
    (keys : List String) (sortBy : Option SortBy) (res : List (HubEvent α))
    (hreg : (reg.map Prod.fst).Nodup) (hwf : ∀ p ∈ reg, p.2.key = p.1) :
    (∀ sb2 : Option SortBy,
      toSignalMultipleP0 reg [] sb2 = .error "Keys array cannot be empty") ∧
    (toSignalMultipleMain reg ([] : List String) = .error "Keys array cannot be empty") ∧
    (∀ ks : List String, "" ∈ ks →
      toSignalMultipleMain reg ks = .error "All keys must be non-empty") ∧
    (toSignalMultipleP0 reg keys sortBy = .ok res →
      (∀ e : HubEvent α, e ∈ res ↔
        ((e.key, e) ∈ reg ∧ ∃ q ∈ keys, q ≠ "" ∧ entryHit q e.key = true)) ∧
      (res.map (fun e => e.key)).Nodup ∧
      (sortBy = some SortBy.timestamp → List.Sorted tsDescRel res) ∧
      (sortBy = some SortBy.key → List.Sorted keyAscRel res)) := by
  refine ⟨fun sb2 => rfl, rfl, ?_, ?_⟩
  · intro ks hks
    have h1 : ks.isEmpty = false := by
      rcases ks with _ | ⟨a, tl⟩
      · cases hks
      · rfl
    have h2 : (ks.any fun k => decide (k = "")) = true :=
      List.any_eq_true.mpr ⟨"", hks, by simp⟩
    simp only [toSignalMultipleMain, h1, Bool.false_eq_true, if_false, h2, if_true]
  · intro hok
    cases hkeys : keys.isEmpty with
    | true =>
      rw [toSignalMultipleP0, if_pos hkeys] at hok
      cases hok
    | false =>
      rw [toSignalMultipleP0, if_neg (by rw [hkeys]; exact Bool.false_ne_true)] at hok
      have spec := tsmCollect_spec reg hreg hwf keys []
        ⟨List.nodup_nil, fun p hp => absurd hp (List.not_mem_nil p)⟩
      have hsub : ∀ p ∈ tsmCollect reg keys [], p ∈ reg := fun p hp => spec.1.2 p hp
      have memEv : ∀ e : HubEvent α, e ∈ (tsmCollect reg keys []).map Prod.snd ↔
          ((e.key, e) ∈ reg ∧ ∃ q ∈ keys, q ≠ "" ∧ entryHit q e.key = true) := by
        intro e
        constructor
        · intro he
          obtain ⟨p, hp, hpe⟩ := List.mem_map.mp he
          obtain ⟨pk, pv⟩ := p
          have hpr : (pk, pv) ∈ reg := hsub _ hp
          have hpk : pv.key = pk := hwf _ hpr
          have hpv : pv = e := hpe
          rcases (spec.2 (pk, pv)).mp hp with h0 | ⟨_, q2, hq2, hne, hhit⟩
          · cases h0
          · subst hpv
            rw [← hpk] at hpr hhit
            exact ⟨hpr, q2, hq2, hne, hhit⟩
        · rintro ⟨hmem, q2, hq2, hne, hhit⟩
          have hc : (e.key, e) ∈ tsmCollect reg keys [] :=
            (spec.2 (e.key, e)).mpr (Or.inr ⟨hmem, q2, hq2, hne, hhit⟩)
          exact List.mem_map.mpr ⟨(e.key, e), hc, rfl⟩
      have nodupEv : (((tsmCollect reg keys []).map Prod.snd).map
          (fun e => e.key)).Nodup := by
        rw [List.map_map]
        have : ((tsmCollect reg keys []).map fun p => p.2.key) =
            (tsmCollect reg keys []).map Prod.fst :=
          map_key_eq_fst _ (fun p hp => hwf p (hsub p hp))
        rw [show ((fun e : HubEvent α => e.key) ∘ Prod.snd) =
            (fun p : String × HubEvent α => p.2.key) from rfl, this]
        exact spec.1.1
      cases sortBy with
      | none =>
        have hres : (tsmCollect reg keys []).map Prod.snd = res := Except.ok.inj hok
        rw [← hres]
        refine ⟨memEv, nodupEv, fun h => ?_, fun h => ?_⟩ <;> simp at h
      | some sb =>
        cases sb with
        | timestamp =>
          have hres : List.insertionSort tsDescRel ((tsmCollect reg keys []).map Prod.snd)
              = res := Except.ok.inj hok
          have hperm := List.perm_insertionSort tsDescRel
            ((tsmCollect reg keys []).map Prod.snd)
          rw [← hres]
          refine ⟨fun e => (hperm.mem_iff).trans (memEv e), ?_, ?_, ?_⟩
          · exact ((hperm.map (fun e => e.key)).nodup_iff).mpr nodupEv
          · intro _
            exact List.sorted_insertionSort tsDescRel _
          · intro h
            cases h
        | key =>
          have hres : List.insertionSort keyAscRel ((tsmCollect reg keys []).map Prod.snd)
              = res := Except.ok.inj hok
          have hperm := List.perm_insertionSort keyAscRel
            ((tsmCollect reg keys []).map Prod.snd)
          rw [← hres]
          refine ⟨fun e => (hperm.mem_iff).trans (memEv e), ?_, ?_, ?_⟩
          · exact ((hperm.map (fun e => e.key)).nodup_iff).mpr nodupEv
          · intro h
            cases h
          · intro _
            exact List.sorted_insertionSort keyAscRel _

theorem toSignalMultiple_spec_witness :
    toSignalMultipleP0 [("a:x", (⟨"a:x", 1, 5⟩ : HubEvent Nat)), ("b", ⟨"b", 2, 3⟩)] []
        (some SortBy.timestamp) = .error "Keys array cannot be empty" ∧
    toSignalMultipleMain [("a:x", (⟨"a:x", 1, 5⟩ : HubEvent Nat)), ("b", ⟨"b", 2, 3⟩)]
        ["b", ""] = .error "All keys must be non-empty" ∧
    (([(⟨"a:x", 1, 5⟩ : HubEvent Nat), ⟨"b", 2, 3⟩].map (fun e => e.key)).Nodup) ∧
    List.Sorted tsDescRel [(⟨"a:x", 1, 5⟩ : HubEvent Nat), ⟨"b", 2, 3⟩] := by
  have h := toSignalMultiple_spec
    [("a:x", (⟨"a:x", 1, 5⟩ : HubEvent Nat)), ("b", ⟨"b", 2, 3⟩)]
    ["a:*", "b", ""] (some SortBy.timestamp)
    [(⟨"a:x", 1, 5⟩ : HubEvent Nat), ⟨"b", 2, 3⟩]
    (by decide) (by decide)
  have h4 := h.2.2.2 rfl
  exact ⟨h.1 (some SortBy.timestamp), h.2.2.1 ["b", ""] (by simp), h4.2.1, h4.2.2.1 rfl⟩

/-- A stop condition from the `until` option of part_000 `on` (lines
31–33): either another pattern string, or a boolean reactive signal
identified by an index into the ambient signal environment. -/
inductive StopCond where
  | key (pattern : String)
  | sig (sid : Nat)

/-- What a registered subscriber entry does when it fires. `plain` is an
ordinary user callback (no registry effect); `unsubGroup` is the
`unsubscribeAll` closure of part_000 `on` (lines 89–92), as installed for
stop-event subscribers through `internalSubscribe` with `once = true`
(lines 282–288): it removes every stop-condition subscriber (the firing
one removes itself first, but its own id is in the group), destroys the
condition-watching effects, and unsubscribes the primary subscription. -/
inductive SubAction where
  | plain
  | unsubGroup (condIds : List Nat) (effIds : List Nat) (mainId : Nat)
deriving DecidableEq

/-- Subscriber and effect state of the synchronous-dispatch variant, for
`until` handling: `entries` linearizes the `Map<string, Set<…>>` of
part_000 (lines 62–68) in iteration order as (query, id, action) triples,
`effects` holds the ids of live condition-watching effects, and `nextId`
is the supply of fresh identifiers for new subscriber objects and
effects. -/
structure P0Subs where
  entries : List (String × Nat × SubAction)
  effects : List Nat
  nextId : Nat

/-- Does firing this action unsubscribe the subscriber with this id? -/
def removesId : SubAction → Nat → Bool
  | .plain, _ => false
  | .unsubGroup ci _ m, i => ci.contains i || decide (i = m)

/-- Apply a fired subscriber action to the state. -/
def applyAction (a : SubAction) (st : P0Subs) : P0Subs :=
  match a with
  | .plain => st
  | .unsubGroup ci ei m =>
    { st with
      entries := st.entries.filter
        (fun e => removesId (.unsubGroup ci ei m) e.2.1 = false),
      effects := st.effects.filter (fun j => ei.contains j = false) }

/-- part_000 `notifySubscribers` (lines 297–311), restricted to the state
effects of the delivered callbacks: entries are visited in iteration
order; an entry fires only if it is still registered when reached (`Map`
and `Set` iteration skips members deleted mid-iteration) and its query
matches the event key under the regex matcher. -/
def notifyGo (ekey : String) : List (String × Nat × SubAction) → P0Subs → P0Subs
  | [], st => st
  | e :: rest, st =>
    notifyGo ekey rest
      (if e ∈ st.entries ∧ matchQueryRegex ekey e.1 = true then applyAction e.2.2 st
       else st)

def notifyP0Subs (st : P0Subs) (ekey : String) : P0Subs :=
  notifyGo ekey st.entries st

/-- The effect installed for a boolean stop condition (part_000 lines
107–114): when the watched signal turns true and the effect has not been
destroyed, it runs the `unsubscribeAll` closure. -/
def effectFire (st : P0Subs) (effId : Nat) (a : SubAction) : P0Subs :=
  if effId ∈ st.effects then applyAction a st else st

/-- Result of registering through part_000 `on` with `until` conditions:
the new state, whether a subscription was actually installed, the primary
subscription id, the installed stop-event subscribers (pattern, id), the
installed condition effects (signal, effect id), and the shared
`unsubscribeAll` action. -/
structure UntilResult where
  state : P0Subs
  installed : Bool
  mainId : Nat
  condSubs : List (String × Nat)
  effSubs : List (Nat × Nat)
  groupAct : SubAction

/-- The immediate check of part_000 `on` lines 97–98: is a boolean
condition already true? -/
def condIsSigTrue (env : Nat → Bool) : StopCond → Bool
  | .key _ => false
  | .sig s => env s

/-- Fresh identifiers, one per condition in order. -/
def untilIds (st : P0Subs) (conds : List StopCond) : List (StopCond × Nat) :=
  conds.zip ((List.range conds.length).map (fun i => st.nextId + i))

def untilCondSubs (st : P0Subs) (conds : List StopCond) : List (String × Nat) :=
  (untilIds st conds).filterMap (fun ci =>
    match ci.1 with
    | .key p => some (p, ci.2)
    | .sig _ => none)

def untilEffSubs (st : P0Subs) (conds : List StopCond) : List (Nat × Nat) :=
  (untilIds st conds).filterMap (fun ci =>
    match ci.1 with
    | .sig s => some (s, ci.2)
    | .key _ => none)

def untilMainId (st : P0Subs) (conds : List StopCond) : Nat :=
  st.nextId + conds.length

/-- The `unsubscribeAll` closure: at fire time its captured array holds
the unsubscribers of every installed stop subscriber and condition
effect, plus the primary subscription (lines 89–92, 102–116, 133). -/
def untilAct (st : P0Subs) (conds : List StopCond) : SubAction :=
  .unsubGroup ((untilCondSubs st conds).map Prod.snd)
    ((untilEffSubs st conds).map Prod.snd) (untilMainId st conds)

/-- part_000 `on` (lines 80–135) restricted to its registry effects: if
some boolean condition is already true, return immediately with an inert
handle and no state change (lines 97–100); otherwise install one
stop-event subscriber per pattern condition (with the shared
`unsubscribeAll` action), one effect per signal condition, and finally the
primary subscription. -/
def onUntil (st : P0Subs) (key : String) (conds : List StopCond) (env : Nat → Bool) :
    UntilResult :=
  if conds.any (condIsSigTrue env) then
    ⟨st, false, 0, [], [], .plain⟩
  else
    ⟨{ entries := st.entries ++
         (untilCondSubs st conds).map (fun pc => (pc.1, pc.2, untilAct st conds)) ++
         [(key, untilMainId st conds, .plain)],
       effects := st.effects ++ (untilEffSubs st conds).map Prod.snd,
       nextId := untilMainId st conds + 1 },
      true, untilMainId st conds, untilCondSubs st conds, untilEffSubs st conds,
      untilAct st conds⟩

/-- Well-formedness of the pre-existing state: every registered id is
below `nextId`, and no registered action unsubscribes an id at or above
`nextId` (actions only ever capture ids that already existed). -/
def wfSubs (st : P0Subs) : Prop :=
  ∀ e ∈ st.entries, e.2.1 < st.nextId ∧ ∀ n, st.nextId ≤ n → removesId e.2.2 n = false

theorem applyAction_subset (a : SubAction) (st : P0Subs) :
    ∀ x ∈ (applyAction a st).entries, x ∈ st.entries := by
  intro x hx
  cases a with
  | plain => exact hx
  | unsubGroup ci ei m => exact (List.mem_filter.mp hx).1

theorem applyAction_removes (a : SubAction) (st : P0Subs) (key : String) (mId : Nat)
    (h : removesId a mId = true) :
    ∀ x, (key, mId, x) ∉ (applyAction a st).entries := by
  intro x hx
  cases a with
  | plain => simp [removesId] at h
  | unsubGroup ci ei m =>
    have hpred := (List.mem_filter.mp hx).2
    simp only at hpred
    rw [h] at hpred
    cases hpred

theorem notifyGo_subset (ekey : String) :
    ∀ (l : List (String × Nat × SubAction)) (st : P0Subs),
      ∀ x ∈ (notifyGo ekey l st).entries, x ∈ st.entries := by
  intro l
  induction l with
  | nil => intro st x hx; exact hx
  | cons e rest ih =>
    intro st x hx
    simp only [notifyGo] at hx
    by_cases hc : e ∈ st.entries ∧ matchQueryRegex ekey e.1 = true
    · rw [if_pos hc] at hx
      exact applyAction_subset _ _ _ (ih _ x hx)
    · rw [if_neg hc] at hx
      exact ih _ x hx

theorem notifyGo_removes (ekey key : String) (mId : Nat) (p : String) (i : Nat)
    (act : SubAction) (hacti : removesId act mId = true)
    (hmatch : matchQueryRegex ekey p = true) :
    ∀ (l : List (String × Nat × SubAction)) (st : P0Subs),
      (∀ e ∈ l, removesId e.2.2 i = true → removesId e.2.2 mId = true) →
      (((p, i, act) ∈ l ∧ (p, i, act) ∈ st.entries) ∨
        (∀ a, (key, mId, a) ∉ st.entries)) →
      ∀ a, (key, mId, a) ∉ (notifyGo ekey l st).entries := by
  intro l
  induction l with
  | nil =>
    intro st _ hd a
    rcases hd with ⟨hin, _⟩ | habs
    · cases hin
    · exact habs a
  | cons e rest ih =>
    intro st hrem hd
    have hrem2 : ∀ e2 ∈ rest, removesId e2.2.2 i = true → removesId e2.2.2 mId = true :=
      fun e2 he2 => hrem e2 (List.mem_cons_of_mem _ he2)
    simp only [notifyGo]
    rcases hd with ⟨hin, hst⟩ | habs
    · rcases List.mem_cons.mp hin with heq | hin2
      · rw [← heq]
        rw [if_pos ⟨hst, hmatch⟩]
        exact ih _ hrem2
          (Or.inr (applyAction_removes act st key mId hacti))
      · by_cases hfire : e ∈ st.entries ∧ matchQueryRegex ekey e.1 = true
        · rw [if_pos hfire]
          by_cases hsurv : (p, i, act) ∈ (applyAction e.2.2 st).entries
          · exact ih _ hrem2 (Or.inl ⟨hin2, hsurv⟩)
          · have hrm : removesId e.2.2 i = true := by
              cases ha : e.2.2 with
              | plain =>
                exfalso
                apply hsurv
                rw [ha]
                exact hst
              | unsubGroup ci ei m =>
                by_contra hc
                have hc2 : removesId (SubAction.unsubGroup ci ei m) i = false := by
                  revert hc
                  cases removesId (SubAction.unsubGroup ci ei m) i <;> simp
                apply hsurv
                rw [ha]
                exact List.mem_filter.mpr ⟨hst, by simpa using hc2⟩
            have hrmm := hrem e (List.mem_cons_self _ _) hrm
            exact ih _ hrem2 (Or.inr (applyAction_removes e.2.2 st key mId hrmm))
        · rw [if_neg hfire]
          exact ih _ hrem2 (Or.inl ⟨hin2, hst⟩)
    · have habs2 : ∀ a, (key, mId, a) ∉
          (if e ∈ st.entries ∧ matchQueryRegex ekey e.1 = true then applyAction e.2.2 st
           else st).entries := by
        intro a hx
        by_cases hc : e ∈ st.entries ∧ matchQueryRegex ekey e.1 = true
        · rw [if_pos hc] at hx
          exact habs a (applyAction_subset _ _ _ hx)
        · rw [if_neg hc] at hx
          exact habs a hx
      exact ih _ hrem2 (Or.inr habs2)

theorem untilCondSubs_id_ge (st : P0Subs) (conds : List StopCond) (p : String) (i : Nat)
    (h : (p, i) ∈ untilCondSubs st conds) : st.nextId ≤ i := by
  obtain ⟨⟨c, j⟩, hci, hf⟩ := List.mem_filterMap.mp h
  have hj : j ∈ (List.range conds.length).map (fun m => st.nextId + m) :=
    (List.of_mem_zip hci).2
  obtain ⟨m, _, hmj⟩ := List.mem_map.mp hj
  cases c with
  | key p2 =>
    have hf2 : (some (p2, j) : Option (String × Nat)) = some (p, i) := hf
    have hji : j = i := congrArg Prod.snd (Option.some.inj hf2)
    omega
  | sig s =>
    have hf2 : (none : Option (String × Nat)) = some (p, i) := hf
    cases hf2

theorem removesId_untilAct_main (st : P0Subs) (conds : List StopCond) :
    removesId (untilAct st conds) (untilMainId st conds) = true := by
  simp [untilAct, removesId]

/-- C8: registering with `until` stop conditions — when some boolean
condition is already true at registration time, no subscriber entry, stop
subscriber, or effect is installed at all (the state is untouched and the
returned handle is inert); otherwise, a publish whose key matches any of
the installed stop-event patterns removes the primary subscription from
the registry, and so does a watched boolean condition turning true while
its effect is alive. -/
theorem until_stop_conditions (st : P0Subs) (key : String) (conds : List StopCond)
    (env : Nat → Bool) (ekey : String) (hwf : wfSubs st) :
    (conds.any (condIsSigTrue env) = true →
      (onUntil st key conds env).state = st ∧
      (onUntil st key conds env).installed = false) ∧
    (conds.any (condIsSigTrue env) = false →
      ∀ p i, (p, i) ∈ (onUntil st key conds env).condSubs →
        matchQueryRegex ekey p = true →
        ∀ a, (key, (onUntil st key conds env).mainId, a) ∉
          (notifyP0Subs (onUntil st key conds env).state ekey).entries) ∧
    (conds.any (condIsSigTrue env) = false →
      ∀ s eid, (s, eid) ∈ (onUntil st key conds env).effSubs →
        ∀ a, (key, (onUntil st key conds env).mainId, a) ∉
          (effectFire (onUntil st key conds env).state eid
            (onUntil st key conds env).groupAct).entries) := by
  refine ⟨?_, ?_, ?_⟩
  · intro htrue
    rw [onUntil, if_pos htrue]
    exact ⟨rfl, rfl⟩
  · intro hfalse p i hpi hmatch
    have hne : ¬(conds.any (condIsSigTrue env) = true) := by
      rw [hfalse]
      exact Bool.false_ne_true
    simp only [onUntil, if_neg hne] at hpi ⊢
    have hige : st.nextId ≤ i := untilCondSubs_id_ge st conds p i hpi
    have hstop : (p, i, untilAct st conds) ∈
        st.entries ++
          (untilCondSubs st conds).map (fun pc => (pc.1, pc.2, untilAct st conds)) ++
          [(key, untilMainId st conds, .plain)] := by
      refine List.mem_append.mpr (Or.inl (List.mem_append.mpr (Or.inr ?_)))
      exact List.mem_map.mpr ⟨(p, i), hpi, rfl⟩
    refine notifyGo_removes ekey key (untilMainId st conds) p i (untilAct st conds)
      (removesId_untilAct_main st conds) hmatch _ _ ?_ (Or.inl ⟨hstop, hstop⟩)
    intro e he hi
    rcases List.mem_append.mp he with hleft | hmain
    · rcases List.mem_append.mp hleft with hold | hstops
      · exfalso
        have := (hwf e hold).2 i hige
        rw [this] at hi
        cases hi
      · obtain ⟨pc, _, hpc⟩ := List.mem_map.mp hstops
        rw [← hpc]
        exact removesId_untilAct_main st conds
    · have he2 : e = (key, untilMainId st conds, SubAction.plain) :=
        List.mem_singleton.mp hmain
      rw [he2] at hi
      cases hi
  · intro hfalse s eid heid
    have hne : ¬(conds.any (condIsSigTrue env) = true) := by
      rw [hfalse]
      exact Bool.false_ne_true
    simp only [onUntil, if_neg hne] at heid ⊢
    have hmem : eid ∈ st.effects ++ (untilEffSubs st conds).map Prod.snd :=
      List.mem_append.mpr (Or.inr (List.mem_map.mpr ⟨(s, eid), heid, rfl⟩))
    rw [effectFire, if_pos hmem]
    exact applyAction_removes _ _ key _ (removesId_untilAct_main st conds)

theorem until_stop_conditions_witness :
    (onUntil ⟨[], [], 0⟩ "main" [.sig 7] (fun _ => true)).state = ⟨[], [], 0⟩ ∧
    ("main", (onUntil ⟨[], [], 0⟩ "main" [.key "stop"] (fun _ => false)).mainId,
        SubAction.plain) ∉
      (notifyP0Subs (onUntil ⟨[], [], 0⟩ "main" [.key "stop"] (fun _ => false)).state
        "stop").entries ∧
    ("main", (onUntil ⟨[], [], 0⟩ "main" [.sig 7] (fun _ => false)).mainId,
        SubAction.plain) ∉
      (effectFire (onUntil ⟨[], [], 0⟩ "main" [.sig 7] (fun _ => false)).state 0
        (onUntil ⟨[], [], 0⟩ "main" [.sig 7] (fun _ => false)).groupAct).entries := by
  have hwf0 : wfSubs ⟨[], [], 0⟩ := fun e he => absurd he (List.not_mem_nil e)
  have h1 := until_stop_conditions ⟨[], [], 0⟩ "main" [.sig 7] (fun _ => true) "stop" hwf0
  have h2 := until_stop_conditions ⟨[], [], 0⟩ "main" [.key "stop"] (fun _ => false)
    "stop" hwf0
  have h3 := until_stop_conditions ⟨[], [], 0⟩ "main" [.sig 7] (fun _ => false) "x" hwf0
  exact ⟨(h1.1 (by decide)).1,
    h2.2.1 (by decide) "stop" 0 (by decide) (by decide) SubAction.plain,
    h3.2.2 (by decide) 7 0 (by decide) SubAction.plain⟩
